import Mathlib

/-!
Verification development for the libcamera excerpt consisting of
`src/libcamera/log.cpp` (logging infrastructure) and
`src/ipa/ipu3/algorithms/af.h` (IPU3 autofocus algorithm interface).

The logging code is embedded faithfully from `log.cpp`: strings are
modelled as `List Char` (mirroring `std::string`), severities as `Int`
(the `LogSeverity` enum together with the `-1` sentinel used by
`Logger::parseLogLevel`), and the side effects of `LogMessage`
destruction as an explicit event trace.

The autofocus constants and the statistics-cell record are embedded from
`af.h`.  The bodies of the `Af` member functions live in `af.cpp`, which
is not part of the excerpt; where a claim depends on them, the
corresponding definition is modelled from the specification and says so
in its doc comment.
-/

/-- Severity `LogDebug` of the `LogSeverity` enum (value 0). -/
def LogDebug : Int := 0

/-- Severity `LogInfo` of the `LogSeverity` enum (value 1). -/
def LogInfo : Int := 1

/-- Severity `LogWarning` of the `LogSeverity` enum (value 2). -/
def LogWarning : Int := 2

/-- Severity `LogError` of the `LogSeverity` enum (value 3). -/
def LogError : Int := 3

/-- Severity `LogFatal` of the `LogSeverity` enum (value 4). -/
def LogFatal : Int := 4

/-- Decimal value of a digit string, as computed by `strtoul` working
left to right over the consumed digits (exact, before any range clamp). -/
def digitsVal (l : List Char) : Nat :=
  l.foldl (fun a c => a * 10 + (c.toNat - 48)) 0

/-- `ULONG_MAX` on the LP64 targets libcamera is built for:
`unsigned long` is 64 bits wide. -/
def ulongMax : Nat := 2 ^ 64 - 1

/-- Conversion of an `unsigned long` value to `int`, as performed by the
assignment `severity = strtoul(...)` in `Logger::parseLogLevel`: the
value is reduced modulo 2^32 and reinterpreted as a two's-complement
32-bit signed integer (the gcc/clang behaviour of the narrowing
conversion). -/
def toCInt (n : Nat) : Int :=
  if n % 2 ^ 32 < 2 ^ 31 then ((n % 2 ^ 32 : Nat) : Int)
  else ((n % 2 ^ 32 : Nat) : Int) - 2 ^ 32

/-- The loop of `Logger::parseLogLevel` over the `names[]` array,
unrolled: the first index whose name equals the level string, or -1. -/
def parseLogName (level : List Char) : Int :=
  if level = "DEBUG".data then 0
  else if level = "INFO".data then 1
  else if level = "WARN".data then 2
  else if level = "ERROR".data then 3
  else if level = "FATAL".data then 4
  else -1

/-- `Logger::parseLogLevel`: if the first character is a decimal digit,
parse with `strtoul` (consume leading digits, clamp to `ULONG_MAX` on
overflow, narrow to `int`); the result is replaced by -1 when a
non-digit remains (`*endptr != 0`) or the value exceeds `LogFatal`.
Otherwise look the string up in the severity-name table.  The empty
string has `level[0] == 0`, is not a digit, and matches no name. -/
def parseLogLevel (level : List Char) : Int :=
  match level with
  | [] => -1
  | c :: _ =>
    if c.isDigit then
      let rest := level.dropWhile Char.isDigit
      let severity := toCInt (min (digitsVal (level.takeWhile Char.isDigit)) ulongMax)
      if rest ≠ [] ∨ severity > LogFatal then -1 else severity
    else
      parseLogName level

/-- Split a character list on a separator character, keeping empty
chunks (the comma-splitting loop of `Logger::parseLogLevels`). -/
def splitOnChar (sep : Char) (l : List Char) : List (List Char) :=
  l.foldr
    (fun ch acc =>
      if ch = sep then [] :: acc
      else
        match acc with
        | [] => [[ch]]
        | a :: as => (ch :: a) :: as)
    [[]]

/-- One iteration of the loop body of `Logger::parseLogLevels` on a
single comma-separated chunk: empty chunks are skipped; without a colon
the chunk is a bare level and the category is the wildcard string; with
a colon the category is the part before the first colon and the level
the part after it; entries with an empty category or level, or whose
level parses to -1, are skipped. -/
def parsePair (chunk : List Char) : Option (List Char × Int) :=
  if chunk = [] then none
  else
    let cat := chunk.takeWhile (fun c => c != ':')
    let rest := chunk.dropWhile (fun c => c != ':')
    let category := if rest = [] then ['*'] else cat
    let level := if rest = [] then chunk else rest.tail
    if category = [] ∨ level = [] then none
    else if parseLogLevel level = -1 then none
    else some (category, parseLogLevel level)

/-- `Logger::parseLogLevels`: parse the `LIBCAMERA_LOG_LEVELS` string
into the ordered `levels_` list of (category pattern, severity) pairs. -/
def parseLogLevels (s : List Char) : List (List Char × Int) :=
  (splitOnChar ',' s).filterMap parsePair

/-- The pattern-matching loop of `Logger::registerCategory`: walk the
pattern; a `*` ends the walk with a match; a position beyond the end of
the name or a differing character ends it without a match; exhausting
the pattern is a match. -/
def categoryMatch : List Char → List Char → Bool
  | [], _ => true
  | p :: ps, name =>
    if p = '*' then true
    else
      match name with
      | [] => false
      | n :: ns => if n = p then categoryMatch ps ns else false

/-- The entry-selection loop of `Logger::registerCategory`: the severity
of the first entry of `levels_` whose pattern matches the category name,
if any (the loop breaks at the first match). -/
def findCategorySeverity (levels : List (List Char × Int)) (name : List Char) : Option Int :=
  match levels with
  | [] => none
  | e :: restLevels =>
    if categoryMatch e.1 name then some e.2
    else findCategorySeverity restLevels name

/-- Severity of a freshly constructed `LogCategory`: the constructor
initialises `severity_` to `LogInfo` and `registerCategory` overwrites
it with the first matching configured entry, when one exists. -/
def categorySeverity (levels : List (List Char × Int)) (name : List Char) : Int :=
  (findCategorySeverity levels name).getD LogInfo

/-- Left-pad a string with zeros to the given width: the effect of
`fill(0)` together with `setw` on the stream inserters in
`LogMessage::init`. -/
def padZeros (w : Nat) (s : String) : String :=
  String.mk (List.replicate (w - s.length) '0') ++ s

/-- The timestamp written by `LogMessage::init` from the monotonic clock
reading (`tv_sec`, `tv_nsec`): hours unpadded, minutes and seconds
zero-padded to two digits, nanoseconds zero-padded to nine digits,
enclosed in brackets. -/
def timestampString (sec nsec : Nat) : String :=
  "[" ++ toString (sec / (60 * 60)) ++ ":" ++ padZeros 2 (toString (sec / 60 % 60))
      ++ ":" ++ padZeros 2 (toString (sec % 60)) ++ "." ++ padZeros 9 (toString nsec) ++ "]"

/-- `log_severity_name`: five-character names for severities 0..4,
`UNKWN` otherwise. -/
def severityName (sev : Int) : String :=
  if sev = 0 then "  DBG"
  else if sev = 1 then " INFO"
  else if sev = 2 then " WARN"
  else if sev = 3 then "  ERR"
  else if sev = 4 then "FATAL"
  else "UNKWN"

/-- `basename`: the component of a path after the final slash. -/
def logBasename (s : String) : String :=
  (s.splitOn "/").getLastD ""

/-- Everything `LogMessage` appends after the timestamp: severity name,
category name, file basename and line from `init`, then the message body
streamed by the caller, then the `std::endl` of the destructor. -/
def logMessageRest (sev : Int) (catName fileName : String) (line : Nat) (body : String) : String :=
  " " ++ severityName sev ++ " " ++ catName ++ " " ++ logBasename fileName ++ ":"
      ++ toString line ++ " " ++ body ++ "\n"

/-- The complete text accumulated in `msgStream_` when `~LogMessage`
runs: the `init` header followed by the body and the final newline. -/
def logMessageText (sec nsec : Nat) (sev : Int) (catName fileName : String)
    (line : Nat) (body : String) : String :=
  timestampString sec nsec ++ logMessageRest sev catName fileName line body

/-- Observable effects of `~LogMessage`: a write of a string to stderr,
or a call to `std::abort`. -/
inductive LogEvent where
  | write (s : String)
  | abortProc
deriving DecidableEq

/-- The effect trace of `~LogMessage`: the accumulated text is written
to stderr exactly when the message severity is at least the category
severity, and afterwards the process aborts exactly when the severity is
`LogFatal`. -/
def logMessageFinish (sev catSev : Int) (text : String) : List LogEvent :=
  (if sev ≥ catSev then [LogEvent.write text] else [])
    ++ (if sev = LogFatal then [LogEvent.abortProc] else [])

/-- Full lifetime of a `LogMessage`: the header built by `init` from the
clock reading and message metadata, the body streamed in by the caller,
and the destructor's filtering, write and abort behaviour. -/
def logDestruct (sec nsec : Nat) (sev catSev : Int) (catName fileName : String)
    (line : Nat) (body : String) : List LogEvent :=
  logMessageFinish sev catSev (logMessageText sec nsec sev catName fileName line body)

/-- Constant `kAfMinGridWidth` from `af.h`. -/
def kAfMinGridWidth : Nat := 16

/-- Constant `kAfMinGridHeight` from `af.h`. -/
def kAfMinGridHeight : Nat := 16

/-- Constant `kAfMaxGridWidth` from `af.h`. -/
def kAfMaxGridWidth : Nat := 32

/-- Constant `kAfMaxGridHeight` from `af.h`. -/
def kAfMaxGridHeight : Nat := 24

/-- Constant `kAfMinGridBlockWidth` from `af.h`. -/
def kAfMinGridBlockWidth : Nat := 4

/-- Constant `kAfMinGridBlockHeight` from `af.h`. -/
def kAfMinGridBlockHeight : Nat := 3

/-- Constant `kAfMaxGridBlockWidth` from `af.h`. -/
def kAfMaxGridBlockWidth : Nat := 6

/-- Constant `kAfMaxGridBlockHeight` from `af.h`. -/
def kAfMaxGridBlockHeight : Nat := 6

/-- Constant `kAfDefaultHeightPerSlice` from `af.h`. -/
def kAfDefaultHeightPerSlice : Nat := 2

/-- The packed statistics cell `y_table_item_t` of `af.h`: a y1 average
followed by a y2 average, both `uint16_t`. -/
structure YTableItem where
  y1_avg : Nat
  y2_avg : Nat
deriving DecidableEq

/-- Little-endian bytes of a `uint16_t` field value. -/
def le16 (n : Nat) : List Nat :=
  [n % 256, n / 256 % 256]

/-- Byte layout of one `y_table_item_t` cell: because the struct is
`__attribute__((packed))`, the two 16-bit fields are laid out
back to back, y1 average first, with no padding. -/
def itemBytes (it : YTableItem) : List Nat :=
  le16 it.y1_avg ++ le16 it.y2_avg

/-- Byte layout of the whole y table: the cells one after another, in
the row-major order the hardware writes them, with no padding between
cells. -/
def tableBytes : List YTableItem → List Nat
  | [] => []
  | it :: restItems => itemBytes it ++ tableBytes restItems

/-- Channel selection of `Af::afEstimateVariance`: the `isY1` flag picks
the y1 average, otherwise the y2 average. -/
def channelValue (isY1 : Bool) (it : YTableItem) : ℚ :=
  if isY1 then (it.y1_avg : ℚ) else (it.y2_avg : ℚ)

/-- Modelled from the spec: the body of `Af::afEstimateVariance` is in
`af.cpp`, which is not part of the excerpt; only its declaration appears
in `af.h`.  Following spec section 4.1, the estimator returns the
population variance of the selected channel over all cells — values are
mean-subtracted, squared and averaged over the cell count — and a table
with zero cells yields the defined score 0.  Arithmetic is modelled over
the exact rationals. -/
def afEstimateVariance (t : List YTableItem) (isY1 : Bool) : ℚ :=
  if t.length = 0 then 0
  else
    let vals := t.map (channelValue isY1)
    let mean : ℚ := vals.sum / (t.length : ℚ)
    (vals.map (fun v => (v - mean) ^ 2)).sum / (t.length : ℚ)

/-- A statistics table whose y1 values are 0, 1, ..., n-1 (y2 zero). -/
def rampTable (n : Nat) : List YTableItem :=
  (List.range n).map (fun i => ⟨i, 0⟩)

/-- Scan states of the focus scanner (spec section 3, `ScanState`). -/
inductive ScanState where
  | reset
  | coarse
  | fine
  | focused
deriving DecidableEq

/-- The AF context: the private state of class `Af` in `af.h` together
with the scan state of spec section 3. -/
structure AfContext where
  focus : Nat
  bestFocus : Nat
  currentVariance : ℚ
  previousVariance : ℚ
  ignoreCounter : Nat
  maxStep : Nat
  coarseCompleted : Bool
  fineCompleted : Bool
  state : ScanState
deriving DecidableEq

/-- Implementation-tuned constants that spec section 9 leaves as
configuration: settle-frame count, coarse and fine increments, and the
out-of-focus threshold fraction. -/
structure AfTuning where
  settleFrames : Nat
  coarseInc : Nat
  fineInc : Nat
  oofThresh : ℚ

/-- Modelled from the spec: the body of `Af::afNeedIgnoreFrame` is in
`af.cpp`, not part of the excerpt.  Spec section 4.2: the settling
filter reports that the current frame must be ignored while the
settle-frame count is non-zero. -/
def afNeedIgnoreFrame (ctx : AfContext) : Bool :=
  ctx.ignoreCounter != 0

/-- Modelled from the spec: one step of the focus scanner of spec
section 4.4, fed the variance measured on an eligible frame.  Reset
initialises and arms the settling filter; coarse and fine scans advance
while the variance is non-decreasing and the step bound is not reached,
clamping the actuator step and re-arming the filter on every step
change; Focused re-triggers a scan when the variance falls below the
threshold fraction of the converged peak. -/
def afScanStep (cfg : AfTuning) (ctx : AfContext) (v : ℚ) : AfContext :=
  match ctx.state with
  | ScanState.reset =>
    { ctx with focus := 0, bestFocus := 0, currentVariance := 0, previousVariance := 0,
               coarseCompleted := false, fineCompleted := false,
               ignoreCounter := cfg.settleFrames, state := ScanState.coarse }
  | ScanState.coarse =>
    if ctx.previousVariance ≤ v ∧ ctx.focus < ctx.maxStep then
      { ctx with bestFocus := ctx.focus,
                 focus := min (ctx.focus + cfg.coarseInc) ctx.maxStep,
                 currentVariance := v, previousVariance := v,
                 ignoreCounter := cfg.settleFrames }
    else
      { ctx with coarseCompleted := true, focus := ctx.bestFocus,
                 currentVariance := v, previousVariance := v,
                 ignoreCounter := cfg.settleFrames, state := ScanState.fine }
  | ScanState.fine =>
    if ctx.previousVariance ≤ v ∧ ctx.focus < min (ctx.bestFocus + cfg.coarseInc) ctx.maxStep then
      { ctx with bestFocus := ctx.focus,
                 focus := min (ctx.focus + cfg.fineInc) ctx.maxStep,
                 currentVariance := v, previousVariance := v,
                 ignoreCounter := cfg.settleFrames }
    else
      { ctx with fineCompleted := true, focus := ctx.bestFocus,
                 currentVariance := v,
                 ignoreCounter := cfg.settleFrames, state := ScanState.focused }
  | ScanState.focused =>
    if v < cfg.oofThresh * ctx.currentVariance then
      { ctx with state := ScanState.reset }
    else
      ctx

/-- Modelled from the spec: the body of `Af::process` is in `af.cpp`,
not part of the excerpt.  Spec sections 4.5 and 7: `process` is total —
it never raises or returns an error, which the model reflects by
returning a context unconditionally.  A missing statistics payload or a
table truncated below the active grid's cell count is treated as an
ignored frame with no state mutation; a frame the settling filter
ignores only decrements the settle count; otherwise the variance is
estimated and the scanner advances one step. -/
def afProcess (cfg : AfTuning) (cells : Nat) (ctx : AfContext)
    (stats : Option (List YTableItem)) : AfContext :=
  match stats with
  | none => ctx
  | some table =>
    if table.length < cells then ctx
    else if afNeedIgnoreFrame ctx then { ctx with ignoreCounter := ctx.ignoreCounter - 1 }
    else afScanStep cfg ctx (afEstimateVariance table true)

theorem tableBytes_length (t : List YTableItem) : (tableBytes t).length = 4 * t.length := by
  induction t with
  | nil => rfl
  | cons it rest ih =>
    simp [tableBytes, itemBytes, le16, ih]
    omega

theorem tableBytes_drop (t : List YTableItem) :
    ∀ i : Nat, (tableBytes t).drop (4 * i) = tableBytes (t.drop i) := by
  induction t with
  | nil => intro i; simp [tableBytes]
  | cons it rest ih =>
    intro i
    cases i with
    | zero => simp
    | succ j =>
      have h4 : 4 * (j + 1) = 4 * j + 1 + 1 + 1 + 1 := by ring
      simp only [tableBytes, itemBytes, le16, List.cons_append, List.nil_append, h4,
        List.drop_succ_cons, List.drop]
      exact ih j

theorem sumSqDev (l : List ℚ) (m : ℚ) :
    (l.map (fun v => (v - m) ^ 2)).sum
      = (l.map (fun v => v ^ 2)).sum - 2 * m * l.sum + (l.length : ℚ) * m ^ 2 := by
  induction l with
  | nil => simp
  | cons x xs ih =>
    simp only [List.map_cons, List.sum_cons, List.length_cons, ih]
    push_cast
    ring

theorem rangeSum (n : Nat) :
    ((List.range n).map (fun i : ℕ => (i : ℚ))).sum = (n : ℚ) * ((n : ℚ) - 1) / 2 := by
  induction n with
  | zero => simp
  | succ m ih =>
    rw [List.range_succ]
    simp only [List.map_append, List.sum_append, ih, List.map_cons, List.map_nil,
      List.sum_cons, List.sum_nil]
    push_cast
    ring

theorem rangeSumSq (n : Nat) :
    ((List.range n).map (fun i : ℕ => (i : ℚ) ^ 2)).sum
      = (n : ℚ) * ((n : ℚ) - 1) * (2 * (n : ℚ) - 1) / 6 := by
  induction n with
  | zero => simp
  | succ m ih =>
    rw [List.range_succ]
    simp only [List.map_append, List.sum_append, ih, List.map_cons, List.map_nil,
      List.sum_cons, List.sum_nil]
    push_cast
    ring

/-- C5: for every statistics table and channel selector, the variance
estimate is non-negative; a table of equal cells yields 0; a table with
y1 values 0, 1, ..., n-1 (n at least 1) yields (n^2 - 1)/12; and a table
with zero cells yields 0 rather than an error. -/
theorem claim_C5_variance :
    (∀ t b, 0 ≤ afEstimateVariance t b)
    ∧ (∀ n it b, afEstimateVariance (List.replicate n it) b = 0)
    ∧ (∀ n : Nat, 1 ≤ n →
        afEstimateVariance (rampTable n) true = (((n : ℕ) : ℚ) ^ 2 - 1) / 12)
    ∧ (∀ b, afEstimateVariance [] b = 0) := by
  refine ⟨?_, ?_, ?_, ?_⟩
  · intro t b
    unfold afEstimateVariance
    split
    · exact le_refl 0
    · apply div_nonneg
      · apply List.sum_nonneg
        intro x hx
        simp only [List.mem_map] at hx
        obtain ⟨v, _, rfl⟩ := hx
        positivity
      · positivity
  · intro n it b
    cases n with
    | zero => simp [afEstimateVariance]
    | succ m =>
      have hne : ((m + 1 : Nat) : ℚ) ≠ 0 := by positivity
      simp only [afEstimateVariance, List.length_replicate, List.map_replicate,
        List.sum_replicate, nsmul_eq_mul, Nat.succ_ne_zero, if_false]
      rw [mul_div_cancel_left₀ _ hne, mul_div_cancel_left₀ _ hne, sub_self]
      simp
  · intro n hn
    have hlen : (rampTable n).length = n := by simp [rampTable]
    have hne : ((n : Nat) : ℚ) ≠ 0 := by
      simp only [ne_eq, Nat.cast_eq_zero]
      omega
    have hvals : (rampTable n).map (channelValue true)
        = (List.range n).map (fun i : ℕ => (i : ℚ)) := by
      simp [rampTable, channelValue, Function.comp]
    have hn0 : n ≠ 0 := by omega
    simp only [afEstimateVariance, hlen, hvals, hn0, if_false]
    rw [sumSqDev, rangeSum]
    have hsq : ((List.range n).map (fun i : ℕ => (i : ℚ))).map (fun v => v ^ 2)
        = (List.range n).map (fun i : ℕ => (i : ℚ) ^ 2) := by
      rw [List.map_map]
      rfl
    rw [hsq, rangeSumSq]
    simp only [List.length_map, List.length_range]
    field_simp
    ring
  · intro b
    simp [afEstimateVariance]

/-- Witness for C5 at the concrete ramp 0, 1, 2, 3: the hypothesis
1 <= n holds at n = 4 and the estimator returns (16 - 1)/12. -/
theorem claim_C5_witness :
    1 ≤ 4 ∧ afEstimateVariance (rampTable 4) true = (((4 : ℕ) : ℚ) ^ 2 - 1) / 12 :=
  ⟨by decide, claim_C5_variance.2.2.1 4 (by decide)⟩

/-- C6: the hardware grid-bound constants of `af.h` have exactly the
documented values: grid width 16..32 blocks, grid height 16..24 blocks,
block width 4..6 px, block height 3..6 px, default height-per-slice 2. -/
theorem claim_C6_grid_constants :
    kAfMinGridWidth = 16 ∧ kAfMaxGridWidth = 32
    ∧ kAfMinGridHeight = 16 ∧ kAfMaxGridHeight = 24
    ∧ kAfMinGridBlockWidth = 4 ∧ kAfMaxGridBlockWidth = 6
    ∧ kAfMinGridBlockHeight = 3 ∧ kAfMaxGridBlockHeight = 6
    ∧ kAfDefaultHeightPerSlice = 2 := by
  decide

/-- C7: every statistics cell is the y1 average followed by the y2
average with no padding, so a cell occupies exactly 4 bytes, and in the
row-major table the bytes of the cell at row r, column c of a
width-w grid start at byte offset 4 * (r * w + c), consecutive cells
being contiguous. -/
theorem claim_C7_cell_layout :
    (∀ it : YTableItem, (itemBytes it).length = 4
       ∧ (itemBytes it).take 2 = le16 it.y1_avg ∧ (itemBytes it).drop 2 = le16 it.y2_avg)
    ∧ (∀ (it : YTableItem) (restItems : List YTableItem),
         tableBytes (it :: restItems) = itemBytes it ++ tableBytes restItems)
    ∧ (∀ t : List YTableItem, (tableBytes t).length = 4 * t.length)
    ∧ (∀ (t : List YTableItem) (w r c : Nat),
         (tableBytes t).drop (4 * (r * w + c)) = tableBytes (t.drop (r * w + c))) := by
  refine ⟨?_, ?_, ?_, ?_⟩
  · intro it
    exact ⟨rfl, rfl, rfl⟩
  · intro it restItems
    rfl
  · exact tableBytes_length
  · intro t w r c
    exact tableBytes_drop t (r * w + c)

/-- C8: skipped frames leave the scan state untouched.  `afProcess` is a
total function (it never raises or returns an error), and whenever the
statistics are missing, truncated below the grid's cell count, or the
settling filter reports the frame must be ignored, the actuator step,
best step, variance readings, completion flags and scan state are all
left unchanged (only the settle counter may decrement). -/
theorem claim_C8_process_ignores :
    ∀ (cfg : AfTuning) (cells : Nat) (ctx : AfContext) (stats : Option (List YTableItem)),
      stats = none ∨ (∃ t, stats = some t ∧ t.length < cells) ∨ afNeedIgnoreFrame ctx = true →
      (afProcess cfg cells ctx stats).focus = ctx.focus
      ∧ (afProcess cfg cells ctx stats).bestFocus = ctx.bestFocus
      ∧ (afProcess cfg cells ctx stats).currentVariance = ctx.currentVariance
      ∧ (afProcess cfg cells ctx stats).previousVariance = ctx.previousVariance
      ∧ (afProcess cfg cells ctx stats).coarseCompleted = ctx.coarseCompleted
      ∧ (afProcess cfg cells ctx stats).fineCompleted = ctx.fineCompleted
      ∧ (afProcess cfg cells ctx stats).state = ctx.state := by
  intro cfg cells ctx stats h
  rcases h with rfl | ⟨t, rfl, ht⟩ | hig
  · simp [afProcess]
  · simp [afProcess, ht]
  · cases stats with
    | none => simp [afProcess]
    | some t =>
      by_cases hlen : t.length < cells
      · simp [afProcess, hlen]
      · simp [afProcess, hlen, hig]

/-- Witness for C8: a table of one cell against a four-cell grid is
truncated, and processing it changes none of the scan-state fields. -/
theorem claim_C8_witness :
    (afProcess ⟨2, 10, 1, (1 : ℚ) / 2⟩ 4
        ⟨5, 3, 2, 1, 0, 100, false, false, ScanState.coarse⟩
        (some [⟨7, 9⟩])).state = ScanState.coarse :=
  (claim_C8_process_ignores ⟨2, 10, 1, (1 : ℚ) / 2⟩ 4
      ⟨5, 3, 2, 1, 0, 100, false, false, ScanState.coarse⟩ (some [⟨7, 9⟩])
      (Or.inr (Or.inl ⟨[⟨7, 9⟩], rfl, by decide⟩))).2.2.2.2.2.2

theorem allDigits_split (l : List Char) (h : ∀ c ∈ l, c.isDigit = true) :
    l.takeWhile Char.isDigit = l ∧ l.dropWhile Char.isDigit = [] := by
  have hd : l.dropWhile Char.isDigit = [] := List.dropWhile_eq_nil_iff.mpr h
  have ht := List.takeWhile_append_dropWhile (p := Char.isDigit) (l := l)
  rw [hd, List.append_nil] at ht
  exact ⟨ht, hd⟩

theorem toCInt_small (n : Nat) (h : n < 2 ^ 31) : toCInt n = (n : Int) := by
  have h32 : n < 2 ^ 32 := by omega
  unfold toCInt
  rw [Nat.mod_eq_of_lt h32]
  rw [if_pos h]

theorem parseLogLevel_le (l : List Char) : parseLogLevel l ≤ 4 := by
  cases l with
  | nil =>
    norm_num [parseLogLevel]
  | cons c cs =>
    by_cases hc : c.isDigit = true
    · simp only [parseLogLevel, hc, if_true]
      split
      · norm_num
      · next h =>
        push_neg at h
        unfold LogFatal at h
        exact h.2
    · have hc2 : c.isDigit = false := by simpa using hc
      simp only [parseLogLevel, hc2, Bool.false_eq_true, if_false, parseLogName]
      split_ifs <;> norm_num

theorem parsePair_severity (chunk : List Char) (e : List Char × Int)
    (h : parsePair chunk = some e) : ∃ lvl, e.2 = parseLogLevel lvl := by
  simp only [parsePair] at h
  split_ifs at h
  all_goals injection h with h
  all_goals exact ⟨_, congrArg Prod.snd h.symm⟩

theorem parseLogLevels_severity_le (s : List Char) : ∀ e ∈ parseLogLevels s, e.2 ≤ 4 := by
  intro e he
  simp only [parseLogLevels, List.mem_filterMap] at he
  obtain ⟨chunk, _, hp⟩ := he
  obtain ⟨lvl, h2⟩ := parsePair_severity chunk e hp
  rw [h2]
  exact parseLogLevel_le lvl

theorem findCategorySeverity_mem (levels : List (List Char × Int)) (name : List Char) (v : Int)
    (h : findCategorySeverity levels name = some v) : ∃ e ∈ levels, e.2 = v := by
  induction levels with
  | nil => simp [findCategorySeverity] at h
  | cons e rest ih =>
    simp only [findCategorySeverity] at h
    split_ifs at h
    · injection h with h
      exact ⟨e, List.mem_cons_self e rest, h⟩
    · obtain ⟨f, hf, hv⟩ := ih h
      exact ⟨f, List.mem_cons_of_mem e hf, hv⟩

theorem findCategorySeverity_eq_none (levels : List (List Char × Int)) (name : List Char)
    (h : ∀ e ∈ levels, categoryMatch e.1 name = false) :
    findCategorySeverity levels name = none := by
  induction levels with
  | nil => rfl
  | cons e rest ih =>
    have he : categoryMatch e.1 name = false := h e (List.mem_cons_self e rest)
    simp only [findCategorySeverity, he, Bool.false_eq_true, if_false]
    exact ih fun f hf => h f (List.mem_cons_of_mem e hf)

theorem categoryMatch_wildcard_head (q name : List Char) :
    categoryMatch ('*' :: q) name = true := by
  simp [categoryMatch]

theorem categoryMatch_no_star (p : List Char) (hp : '*' ∉ p) :
    ∀ name, categoryMatch p name = true ↔ ∃ t, p ++ t = name := by
  induction p with
  | nil =>
    intro name
    simp [categoryMatch]
  | cons c cs ih =>
    intro name
    have hc : c ≠ '*' := fun h => hp (h ▸ List.mem_cons_self c cs)
    have hcs : '*' ∉ cs := fun h => hp (List.mem_cons_of_mem c h)
    cases name with
    | nil =>
      simp only [categoryMatch, if_neg hc]
      constructor
      · intro h
        exact absurd h (by simp)
      · rintro ⟨t, ht⟩
        exact absurd ht (by simp)
    | cons n ns =>
      simp only [categoryMatch, if_neg hc]
      by_cases hn : n = c
      · subst hn
        rw [if_pos rfl, ih hcs ns]
        constructor
        · rintro ⟨t, rfl⟩
          exact ⟨t, rfl⟩
        · rintro ⟨t, ht⟩
          refine ⟨t, ?_⟩
          simpa using ht
      · rw [if_neg hn]
        constructor
        · intro h
          exact absurd h (by simp)
        · rintro ⟨t, ht⟩
          simp only [List.cons_append, List.cons.injEq] at ht
          exact absurd ht.1.symm hn

theorem categoryMatch_star_end (p : List Char) (hp : '*' ∉ p) :
    ∀ name, categoryMatch (p ++ ['*']) name = true ↔ ∃ t, p ++ t = name := by
  induction p with
  | nil =>
    intro name
    simp only [List.nil_append]
    rw [categoryMatch_wildcard_head]
    simp
  | cons c cs ih =>
    intro name
    have hc : c ≠ '*' := fun h => hp (h ▸ List.mem_cons_self c cs)
    have hcs : '*' ∉ cs := fun h => hp (List.mem_cons_of_mem c h)
    cases name with
    | nil =>
      simp only [List.cons_append, categoryMatch, if_neg hc]
      constructor
      · intro h
        exact absurd h (by simp)
      · rintro ⟨t, ht⟩
        exact absurd ht (by simp)
    | cons n ns =>
      simp only [List.cons_append, categoryMatch, if_neg hc]
      by_cases hn : n = c
      · subst hn
        rw [if_pos rfl]
        erw [ih hcs ns]
        constructor
        · rintro ⟨t, rfl⟩
          exact ⟨t, rfl⟩
        · rintro ⟨t, ht⟩
          refine ⟨t, ?_⟩
          simpa using ht
      · rw [if_neg hn]
        constructor
        · intro h
          exact absurd h (by simp)
        · rintro ⟨t, ht⟩
          simp only [List.cons_append, List.cons.injEq] at ht
          exact absurd ht.1.symm hn

/-- C1: a log message is prefixed with the timestamp and written to the
error stream exactly when its severity is at least the category's
configured severity; otherwise nothing is written.  The write event's
string is the full message text, which starts with the timestamp. -/
theorem claim_C1_filter_and_timestamp :
    ∀ (sec nsec : Nat) (sev catSev : Int) (catName fileName : String) (line : Nat) (body : String),
      ((∃ s, LogEvent.write s ∈ logDestruct sec nsec sev catSev catName fileName line body)
        ↔ catSev ≤ sev)
      ∧ (∀ s, LogEvent.write s ∈ logDestruct sec nsec sev catSev catName fileName line body →
          s = timestampString sec nsec ++ logMessageRest sev catName fileName line body) := by
  intro sec nsec sev catSev catName fileName line body
  constructor
  · constructor
    · rintro ⟨s, hs⟩
      simp only [logDestruct, logMessageFinish, List.mem_append] at hs
      rcases hs with hs | hs
      · by_contra hlt
        rw [if_neg hlt] at hs
        simp at hs
      · revert hs
        split <;> simp
    · intro hge
      refine ⟨logMessageText sec nsec sev catName fileName line body, ?_⟩
      simp only [logDestruct, logMessageFinish, List.mem_append]
      left
      rw [if_pos hge]
      exact List.mem_singleton.mpr rfl
  · intro s hs
    simp only [logDestruct, logMessageFinish, logMessageText, List.mem_append] at hs
    rcases hs with hs | hs
    · revert hs
      split
      · intro hs
        rw [List.mem_singleton] at hs
        injection hs with h
      · intro hs
        simp at hs
    · revert hs
      split <;> intro hs <;> simp at hs

/-- Witness for C1: a WARN message against an INFO-severity category is
written. -/
theorem claim_C1_witness :
    ∃ s, LogEvent.write s ∈ logDestruct 7322 5 LogWarning LogInfo "Cat" "dir/file.cpp" 42 "hello" :=
  (claim_C1_filter_and_timestamp 7322 5 LogWarning LogInfo "Cat" "dir/file.cpp" 42 "hello").1.mpr
    (by decide)

/-- C2: the destructor aborts exactly for FATAL messages, and for a
FATAL message against any reachable category severity (all of which are
at most FATAL, since parsed levels never exceed it and the default is
INFO) the write to the error stream precedes the abort in the effect
trace. -/
theorem claim_C2_fatal_aborts :
    (∀ (sev catSev : Int) (text : String),
        LogEvent.abortProc ∈ logMessageFinish sev catSev text ↔ sev = LogFatal)
    ∧ (∀ (catSev : Int) (text : String), catSev ≤ LogFatal →
        logMessageFinish LogFatal catSev text = [LogEvent.write text, LogEvent.abortProc])
    ∧ (∀ (s name : List Char), categorySeverity (parseLogLevels s) name ≤ LogFatal) := by
  refine ⟨?_, ?_, ?_⟩
  · intro sev catSev text
    simp only [logMessageFinish, List.mem_append]
    constructor
    · rintro (h | h)
      · revert h
        split <;> simp
      · revert h
        split
        · intro _
          assumption
        · intro h
          simp at h
    · intro h
      right
      rw [if_pos h]
      exact List.mem_singleton.mpr rfl
  · intro catSev text h
    have hge : LogFatal ≥ catSev := h
    simp [logMessageFinish, hge]
  · intro s name
    unfold categorySeverity
    cases hf : findCategorySeverity (parseLogLevels s) name with
    | none =>
      norm_num [Option.getD, LogInfo, LogFatal]
    | some v =>
      obtain ⟨e, he, hv⟩ := findCategorySeverity_mem _ _ _ hf
      have hb := parseLogLevels_severity_le s e he
      simp only [Option.getD]
      unfold LogFatal
      omega

/-- Witness for C2: a FATAL message against an INFO-severity category is
written and then aborts, in that order. -/
theorem claim_C2_witness :
    logMessageFinish LogFatal LogInfo "boom" = [LogEvent.write "boom", LogEvent.abortProc] :=
  claim_C2_fatal_aborts.2.1 LogInfo "boom" (by decide)

/-- C3 counterexample: the configuration entry `Cam:3` contains no
wildcard, yet registering the category named `Camera` — whose name is
not equal to `Cam` — picks up severity 3 from it, because the matching
loop only compares the pattern's own characters (prefix matching). -/
theorem claim_C3_counterexample :
    parseLogLevels "Cam:3".data = [("Cam".data, 3)]
    ∧ findCategorySeverity (parseLogLevels "Cam:3".data) "Camera".data = some 3
    ∧ "Camera".data ≠ "Cam".data := by
  refine ⟨by decide, by decide, by decide⟩

/-- C3 (amended): a bare-level entry is stored under the pattern `*`,
which matches every category name; a pattern ending in `*` (with no
earlier `*`) matches exactly the names that start with the characters
before the `*`; and a pattern containing no `*` matches exactly the
names that start with the whole pattern — prefix matching, not equality. -/
theorem claim_C3_entry_matching :
    (∀ chunk : List Char, chunk ≠ [] → (∀ c ∈ chunk, c ≠ ':') →
       parsePair chunk = none ∨ ∃ sev, parsePair chunk = some (['*'], sev))
    ∧ (∀ name, categoryMatch ['*'] name = true)
    ∧ (∀ p name, '*' ∉ p →
        (categoryMatch (p ++ ['*']) name = true ↔ ∃ t, p ++ t = name))
    ∧ (∀ p name, '*' ∉ p →
        (categoryMatch p name = true ↔ ∃ t, p ++ t = name)) := by
  refine ⟨?_, ?_, ?_, ?_⟩
  · intro chunk hne hnc
    have hdrop : chunk.dropWhile (fun c => c != ':') = [] := by
      rw [List.dropWhile_eq_nil_iff]
      intro x hx
      simpa using hnc x hx
    by_cases hlvl : parseLogLevel chunk = -1
    · left
      simp only [parsePair, if_neg hne, hdrop, if_pos rfl, hlvl]
      simp [hne, hlvl]
    · right
      refine ⟨parseLogLevel chunk, ?_⟩
      simp only [parsePair, if_neg hne, hdrop, if_pos rfl, hlvl]
      simp [hne, hlvl]
  · intro name
    exact categoryMatch_wildcard_head [] name
  · intro p name hp
    exact categoryMatch_star_end p hp name
  · intro p name hp
    exact categoryMatch_no_star p hp name

/-- Witness for C3: the starless pattern `Cam` matches the longer name
`Camera`, via the prefix characterisation. -/
theorem claim_C3_witness :
    categoryMatch "Cam".data "Camera".data = true :=
  (claim_C3_entry_matching.2.2.2 "Cam".data "Camera".data (by decide)).mpr
    ⟨"era".data, by decide⟩

/-- C4 counterexample: the all-digit string `4294967296` (value 2^32,
far above 4) is not rejected: `strtoul` yields 2^32, the narrowing
conversion to `int` wraps it to 0, and the level parses as DEBUG instead
of -1. -/
theorem claim_C4_counterexample :
    (∀ c ∈ "4294967296".data, c.isDigit = true)
    ∧ 4 < digitsVal "4294967296".data
    ∧ parseLogLevel "4294967296".data = 0 := by
  refine ⟨by decide, by decide, by decide⟩

/-- C4 (amended): the uppercase names map to 0..4; a nonempty all-digit
string with value at most 4 parses to its value; an all-digit string
with value in (4, 2^31) parses to -1; a digit-initial string with a
non-digit remainder parses to -1; a string that neither starts with a
digit nor equals one of the five names parses to -1; and the empty
string parses to -1.  (All-digit strings with value at least 2^31 go
through the unsigned-long-to-int narrowing and may parse to a severity
other than -1, as the counterexample shows.) -/
theorem claim_C4_parse_level :
    (parseLogLevel [] = -1
     ∧ parseLogLevel "DEBUG".data = 0 ∧ parseLogLevel "INFO".data = 1
     ∧ parseLogLevel "WARN".data = 2 ∧ parseLogLevel "ERROR".data = 3
     ∧ parseLogLevel "FATAL".data = 4)
    ∧ (∀ l, l ≠ [] → (∀ c ∈ l, c.isDigit = true) → digitsVal l ≤ 4 →
        parseLogLevel l = (digitsVal l : Int))
    ∧ (∀ l, l ≠ [] → (∀ c ∈ l, c.isDigit = true) → 4 < digitsVal l → digitsVal l < 2 ^ 31 →
        parseLogLevel l = -1)
    ∧ (∀ c l, c.isDigit = true → (c :: l).dropWhile Char.isDigit ≠ [] →
        parseLogLevel (c :: l) = -1)
    ∧ (∀ c l, c.isDigit = false → c :: l ≠ "DEBUG".data → c :: l ≠ "INFO".data →
        c :: l ≠ "WARN".data → c :: l ≠ "ERROR".data → c :: l ≠ "FATAL".data →
        parseLogLevel (c :: l) = -1) := by
  refine ⟨⟨by decide, by decide, by decide, by decide, by decide, by decide⟩, ?_, ?_, ?_, ?_⟩
  · intro l hne hd hv
    cases l with
    | nil => exact absurd rfl hne
    | cons c cs =>
      have hc : c.isDigit = true := hd c (List.mem_cons_self c cs)
      obtain ⟨htake, hdrop⟩ := allDigits_split (c :: cs) hd
      have hmin : min (digitsVal (c :: cs)) ulongMax = digitsVal (c :: cs) := by
        have hle : digitsVal (c :: cs) ≤ ulongMax := by
          unfold ulongMax
          omega
        exact Nat.min_eq_left hle
      have hsev : toCInt (min (digitsVal ((c :: cs).takeWhile Char.isDigit)) ulongMax)
          = (digitsVal (c :: cs) : Int) := by
        rw [htake, hmin]
        exact toCInt_small _ (by omega)
      simp only [parseLogLevel, hc, if_true, hsev, hdrop]
      rw [if_neg]
      push_neg
      refine ⟨rfl, ?_⟩
      unfold LogFatal
      exact_mod_cast hv
  · intro l hne hd hv hb
    cases l with
    | nil => exact absurd rfl hne
    | cons c cs =>
      have hc : c.isDigit = true := hd c (List.mem_cons_self c cs)
      obtain ⟨htake, hdrop⟩ := allDigits_split (c :: cs) hd
      have hmin : min (digitsVal (c :: cs)) ulongMax = digitsVal (c :: cs) := by
        have hle : digitsVal (c :: cs) ≤ ulongMax := by
          unfold ulongMax
          omega
        exact Nat.min_eq_left hle
      have hsev : toCInt (min (digitsVal ((c :: cs).takeWhile Char.isDigit)) ulongMax)
          = (digitsVal (c :: cs) : Int) := by
        rw [htake, hmin]
        exact toCInt_small _ hb
      simp only [parseLogLevel, hc, if_true, hsev, hdrop]
      rw [if_pos]
      right
      unfold LogFatal
      exact_mod_cast hv
  · intro c l hc hr
    simp only [parseLogLevel, hc, if_true]
    rw [if_pos (Or.inl hr)]
  · intro c l hc h1 h2 h3 h4 h5
    simp only [parseLogLevel, hc, Bool.false_eq_true, if_false, parseLogName,
      h1, h2, h3, h4, h5, if_false]

/-- Witness for C4: the digit string `3` parses to severity 3. -/
theorem claim_C4_witness :
    parseLogLevel "3".data = (digitsVal "3".data : Int) :=
  claim_C4_parse_level.2.1 "3".data (by decide) (by decide) (by decide)

/-- C9: when a category is registered, the first configured entry (in
environment-variable order) whose pattern matches the category name
determines its severity; entries after that first match have no effect. -/
theorem claim_C9_first_match_wins :
    ∀ (pre post : List (List Char × Int)) (pat : List Char) (sev : Int) (name : List Char),
      categoryMatch pat name = true →
      (∀ e ∈ pre, categoryMatch e.1 name = false) →
      findCategorySeverity (pre ++ (pat, sev) :: post) name = some sev := by
  intro pre post pat sev name hm hpre
  induction pre with
  | nil =>
    simp only [List.nil_append, findCategorySeverity, hm, if_true]
  | cons e rest ih =>
    have he : categoryMatch e.1 name = false := hpre e (List.mem_cons_self e rest)
    simp only [List.cons_append, findCategorySeverity, he, Bool.false_eq_true, if_false]
    exact ih fun f hf => hpre f (List.mem_cons_of_mem e hf)

/-- Witness for C9: with a non-matching first entry, a matching second
entry, and another matching entry after it, the second entry's severity
is selected. -/
theorem claim_C9_witness :
    findCategorySeverity ([("X".data, 0)] ++ ("Cam*".data, 2) :: [("*".data, 3)])
      "Camera".data = some 2 :=
  claim_C9_first_match_wins [("X".data, 0)] [("*".data, 3)] "Cam*".data 2 "Camera".data
    (by decide) (by decide)

/-- C10: a category matched by no configuration entry keeps the
constructor default severity INFO; at that severity a DEBUG message
produces no event at all, while messages of severity INFO and above are
written. -/
theorem claim_C10_default_info :
    ∀ (levels : List (List Char × Int)) (name : List Char),
      (∀ e ∈ levels, categoryMatch e.1 name = false) →
      categorySeverity levels name = LogInfo
      ∧ (∀ text, logMessageFinish LogDebug (categorySeverity levels name) text = [])
      ∧ (∀ (sev : Int) (text : String), LogInfo ≤ sev →
          LogEvent.write text ∈ logMessageFinish sev (categorySeverity levels name) text) := by
  intro levels name h
  have hfind : findCategorySeverity levels name = none := findCategorySeverity_eq_none levels name h
  have hsev : categorySeverity levels name = LogInfo := by
    unfold categorySeverity
    rw [hfind]
    rfl
  refine ⟨hsev, ?_, ?_⟩
  · intro text
    rw [hsev]
    norm_num [logMessageFinish, LogDebug, LogInfo, LogFatal]
  · intro sev text hge
    rw [hsev]
    simp only [logMessageFinish, List.mem_append]
    left
    rw [if_pos hge]
    exact List.mem_singleton.mpr rfl

/-- Witness for C10: a category unmatched by the configuration
`Other:2` has severity INFO, and a WARN message to an INFO-severity
category is written. -/
theorem claim_C10_witness :
    categorySeverity (parseLogLevels "Other:2".data) "Camera".data = LogInfo
    ∧ LogEvent.write "m" ∈ logMessageFinish LogWarning LogInfo "m" :=
  ⟨(claim_C10_default_info (parseLogLevels "Other:2".data) "Camera".data (by decide)).1,
   (claim_C10_default_info [] "x".data (by simp)).2.2 LogWarning "m" (by decide)⟩
